import Mathlib

/- Verification of the field-normalization (transform) stage of
   src/artifact_modular_ETL_PIPELINE.py (class FlipkartETL, method
   transform_data).

   Strings are modelled as `List Char`; pandas cells as an explicit
   `Cell` type with a missing value (`Cell.na`, modelling NaN) and an
   integer value (`Cell.n`, modelling the numeric Prices column after
   `pd.to_numeric`).  A pandas DataFrame is modelled as an ordered list
   of named columns.  Column operations that raise on some inputs
   (`KeyError` on a missing column label; the `TypeError` raised by
   `' '.join(nan)` inside `.str.split().str[:2].apply(' '.join)`) are
   modelled by `Option`: `none` is an aborted run. -/

namespace ETL

abbrev L := List Char

/-- Whitespace test used by Python `str.split()` with no separator. -/
def ws (c : Char) : Bool := c.isWhitespace

/-- Accumulator worker for `tokens`: `acc` holds the reversed current run
    of non-whitespace characters. -/
def tokA : L → L → List L
  | [], acc => if acc.isEmpty then [] else [acc.reverse]
  | c :: cs, acc =>
    if ws c then
      (if acc.isEmpty then tokA cs [] else acc.reverse :: tokA cs [])
    else tokA cs (c :: acc)

/-- Whitespace tokens of a string: Python `s.split()` (maximal runs of
    non-whitespace characters; empty tokens never occur). -/
def tokens (l : L) : List L := tokA l []

/-- Python `' '.join(ts)`. -/
def joinSp : List L → L
  | [] => []
  | [t] => t
  | t :: t' :: ts => t ++ ' ' :: joinSp (t' :: ts)

/-- `s.split()[:2]` rejoined with `' '.join`: the two-token truncation
    applied to the RAM column (line 72) and the Warranty column
    (line 79). -/
def twoTok (l : L) : L := joinSp ((tokens l).take 2)

/-- `s.split().str[0]`: first whitespace token, `none` (NaN) when the
    string has no tokens — the Brand_Name derivation of line 63. -/
def brandTok (l : L) : Option L := (tokens l).head?

/-- Python `s.split` on the opening parenthesis, first piece:
    everything before the first `(` character. -/
def takeB (l : L) : L := l.takeWhile (fun c => !(c == '('))

/-- Python `s.strip()`: drop leading and trailing whitespace. -/
def stripL (l : L) : L := ((l.dropWhile ws).reverse.dropWhile ws).reverse

/-- Worker for `replaceAll`.  The `Nat` argument counts characters of a
    just-matched occurrence still to be skipped (they were consumed by
    the replacement). -/
def raAux (p r : L) : L → Nat → L
  | [], _ => []
  | _ :: cs, k + 1 => raAux p r cs k
  | c :: cs, 0 =>
    if 0 < p.length ∧ p.isPrefixOf (c :: cs) then r ++ raAux p r cs (p.length - 1)
    else c :: raAux p r cs 0

/-- Python `s.replace(p, r)` (equally `re.sub` for the literal patterns
    used in the source): replace every non-overlapping occurrence of `p`
    by `r`, scanning left to right. -/
def replaceAll (p r s : L) : L := raAux p r s 0

/-- `True` iff `p` occurs as a contiguous substring (Python `p in s`). -/
def containsSub (p : L) : L → Bool
  | [] => p.isEmpty
  | c :: cs => p.isPrefixOf (c :: cs) || containsSub p cs

/-- Boolean suffix test. -/
def isSufB (l₁ l₂ : L) : Bool := l₁.reverse.isPrefixOf l₂.reverse

/- ### Edge whitespace and `stripL` -/

/-- `true` iff the string neither starts nor ends with whitespace. -/
def edgeOk (l : L) : Bool :=
  (match l.head? with | none => true | some c => !ws c) &&
  (match l.getLast? with | none => true | some c => !ws c)

/- ### The column rules of transform_data, value level -/

/-- Line 67: split on the opening parenthesis, keep the first piece and
    strip it; followed by lines 68-69, the two
    literal replacements of the Processor column. -/
def pI5 : L := "Intel Core 5 Processor".data

def rI5 : L := "Intel Core i5 Processor".data

def pI7 : L := "Intel Core 7 Processor".data

def rI7 : L := "Intel Core i7 Processor".data

def procL (l : L) : L := replaceAll pI7 rI7 (replaceAll pI5 rI5 (stripL (takeB l)))

/-- Lines 75-76: the single literal replacement of the
    Operating_System column. -/
def pOS : L := "64 bit Windows 11 Home Operating System".data

def rOS : L := "64 bit Windows 11 Operating System".data

def osL (l : L) : L := replaceAll pOS rOS l

/-- Lines 80-84: `warranty_replacements`, in Python dict insertion
    order (the order in which the loop of lines 85-86 applies them). -/
def warPairs : List (L × L) :=
  [("1 Yr".data, "1 Year".data), ("1 Yera".data, "1 Year".data),
   ("1 Years ".data, "1 Year".data), ("1 year".data, "1 Year".data),
   ("1 Years".data, "1 Year".data), ("One-year International".data, "1 Year".data),
   ("3 Years".data, "3 Year".data), ("2 Years".data, "2 Year".data)]

/-- Lines 85-86: the loop of `str.replace` calls over
    `warranty_replacements`. -/
def warMapL (l : L) : L := warPairs.foldl (fun a kv => replaceAll kv.1 kv.2 a) l

/-- The full Warranty rule: two-token truncation (line 79) followed by
    the replacement loop (lines 85-86). -/
def warL (l : L) : L := warMapL (twoTok l)

/-- Lines 93-95: `rating_replacements` applied via `str.replace(key,
    value, regex=True)`; both patterns are regex-literal. -/
def pRat1 : L := "74,990".data

def pRat2 : L := "57,499".data

def rRat : L := "4.3".data

def ratingL (l : L) : L := replaceAll pRat2 rRat (replaceAll pRat1 rRat l)

/-- Line 89: two chained str.replace calls on the Prices column —
    first delete commas, then delete every non-digit character (the
    regex class backslash-D with regex=True). -/
def priceCleanL (l : L) : L := (l.filter (fun c => !(c == ','))).filter (fun c => c.isDigit)

def digitsVal (l : L) : Nat := l.foldl (fun a c => a * 10 + (c.toNat - '0'.toNat)) 0

/-- Line 90: `pd.to_numeric(col, errors=coerce)` restricted to the
    integer strings this pipeline can feed it: an optional sign followed
    by a nonempty digit string parses; anything else (in particular the
    empty string) coerces to NaN (`none`). -/
def toNumericZ (l : L) : Option Int :=
  match l with
  | [] => none
  | c :: rest =>
    if c = '-' then
      (if rest ≠ [] ∧ rest.all Char.isDigit then some (-(digitsVal rest : Int)) else none)
    else if c = '+' then
      (if rest ≠ [] ∧ rest.all Char.isDigit then some ((digitsVal rest : Int)) else none)
    else if (c :: rest).all Char.isDigit then some ((digitsVal (c :: rest) : Int))
    else none

/-- The full Prices rule at value level (lines 89-90). -/
def priceNum (l : L) : Option Int := toNumericZ (priceCleanL l)

/- ### String-level wrappers (the pandas `.str` rules act on `str`
     values; NaN handling lives at the Cell level below) -/

def procS (s : String) : String := String.mk (procL s.data)

def twoTokS (s : String) : String := String.mk (twoTok s.data)

def brandS (s : String) : Option String := (brandTok s.data).map String.mk

def osS (s : String) : String := String.mk (osL s.data)

def warS (s : String) : String := String.mk (warL s.data)

def ratingS (s : String) : String := String.mk (ratingL s.data)

def priceCleanS (s : String) : String := String.mk (priceCleanL s.data)

def priceNumS (s : String) : Option Int := priceNum s.data

/- ### Cells and tables: the DataFrame model -/

/-- One DataFrame cell: a string, an integer (the Prices column after
    `pd.to_numeric(...).astype(Int64)`), or missing (NaN). -/
inductive Cell where
  | s (v : String)
  | n (v : Int)
  | na
deriving DecidableEq

/-- Line 63, per cell: `.str.split().str[0]` — NaN stays NaN, a string
    with no tokens becomes NaN, otherwise the first token. -/
def brandCell : Cell → Cell
  | .s v =>
    match brandS v with
    | some t => .s t
    | none => .na
  | _ => .na

/-- Lines 67-69, per cell, on a column the `.str` accessor accepts
    (the column-level accessor check lives in `stageMap`): `.str`
    operations propagate NaN and map non-string elements to NaN. -/
def procCell : Cell → Cell
  | .s v => .s (procS v)
  | _ => .na

/-- Lines 75-76, per cell. -/
def osCell : Cell → Cell
  | .s v => .s (osS v)
  | _ => .na

/-- Lines 93-95, per cell. -/
def ratingCell : Cell → Cell
  | .s v => .s (ratingS v)
  | _ => .na

/-- Lines 89-90, per cell: digit-stripping then numeric coercion;
    the empty string coerces to NaN. -/
def priceCell : Cell → Cell
  | .s v =>
    match priceNumS v with
    | some z => .n z
    | none => .na
  | _ => .na

/-- `.str.split().str[:2].apply(' '.join)` on one cell (lines 72 and
    79): for a non-string cell the tokenisation is NaN and
    `' '.join(nan)` raises `TypeError`, so the result is `Option`al. -/
def twoTokCellE : Cell → Option Cell
  | .s v => some (.s (twoTokS v))
  | _ => none

/-- The warranty replacement loop (lines 85-86) on one cell:
    `.str.replace` passes NaN through. -/
def warMapCell : Cell → Cell
  | .s v => .s (String.mk (warMapL v.data))
  | c => c

/-- Elementwise `Option`-valued map over a column; `none` as soon as one
    cell raises. -/
def mapME (f : Cell → Option Cell) : List Cell → Option (List Cell)
  | [] => some []
  | c :: cs =>
    match f c, mapME f cs with
    | some v, some vs => some (v :: vs)
    | _, _ => none

/-- A DataFrame: an ordered list of labelled columns. -/
abbrev Table := List (String × List Cell)

/-- Substring containment of labels, the test behind
    `DataFrame.filter(like=...)`. -/
def strContains (s sub : String) : Bool := containsSub sub.data s.data

def unnamedKey : String := "Unnamed:"

/-- Lines 58-60: drop every column whose label contains `"Unnamed:"`
    anywhere (`filter(like=prefix)` matches by containment, not by
    prefix). -/
def dropUnnamed (t : Table) : Table :=
  t.filter (fun c => !(strContains c.1 unnamedKey))

/-- `df[name]`: first column with the label, `none` = `KeyError`. -/
def getCol (t : Table) (name : String) : Option (List Cell) :=
  (t.find? (fun c => c.1 == name)).map Prod.snd

/-- `df[name] = v`: overwrite in place when the label exists, append a
    new last column otherwise. -/
def setCol (t : Table) (name : String) (v : List Cell) : Table :=
  if (t.find? (fun c => c.1 == name)).isSome then
    t.map (fun c => if c.1 == name then (c.1, v) else c)
  else t ++ [(name, v)]

/-- `df.drop(columns=[name])` / `df.drop(name, axis=1)`. -/
def dropCol (t : Table) (name : String) : Table :=
  t.filter (fun c => !(c.1 == name))

/-- `true` iff a cell holds a string value. -/
def strCell : Cell → Bool
  | .s _ => true
  | _ => false

/-- `true` iff a cell holds a numeric value. -/
def numCell : Cell → Bool
  | .n _ => true
  | _ => false

/-- The pandas `.str` accessor check on a column: a `.str` method is
    usable iff the column's inferred dtype is string, empty or mixed —
    in this model, iff the column holds no numeric value at all, or
    holds at least one string value.  A column of only numeric values
    (a numeric dtype) raises
    `AttributeError: Can only use .str accessor with string values!`. -/
def strAccessorOk (col : List Cell) : Bool :=
  col.all (fun c => !(numCell c)) || col.any (fun c => strCell c)

/-- Lines 63-64: derive Brand_Name from Title, then drop Title.  The
    `.str` accessor of line 63 raises (`none`) on an all-numeric Title
    column; on a mixed column the non-string cells tokenise to NaN. -/
def stageBrand (t : Table) : Option Table :=
  (getCol t "Title").bind
    (fun title =>
      if strAccessorOk title then
        some (dropCol (setCol t "Brand_Name" (title.map brandCell)) "Title")
      else none)

/-- One per-cell rewrite of a named column through the `.str` accessor:
    raises (`none`) when the accessor rejects the column (only numeric
    values); otherwise rewrites each cell, non-string cells becoming
    NaN inside `f`. -/
def stageMap (name : String) (f : Cell → Cell) (t : Table) : Option Table :=
  (getCol t name).bind
    (fun col =>
      if strAccessorOk col then some (setCol t name (col.map f)) else none)

/-- The two-token truncation of a named column (lines 72 and 79):
    raises (`none`) exactly when the column holds any non-string cell —
    the `.str` accessor raises AttributeError if the column is
    all-numeric, and otherwise `' '.join` raises TypeError on the NaN
    tokenisation of a missing or non-string cell. -/
def stageTrunc (name : String) (t : Table) : Option Table :=
  (getCol t name).bind
    (fun col => (mapME twoTokCellE col).map (fun colv => setCol t name colv))

/-- Lines 54-102 of transform_data (everything except the final
    `head(50)`), as the sequence of column assignments the source
    performs, in source order. -/
def transformFull (t : Table) : Option Table :=
  (stageBrand (dropUnnamed t)).bind (fun t3 =>
  (stageMap "Processor" procCell t3).bind (fun t4 =>
  (stageTrunc "RAM" t4).bind (fun t5 =>
  (stageMap "Operating_System" osCell t5).bind (fun t6 =>
  (stageTrunc "Warranty" t6).bind (fun t6b =>
  (stageMap "Warranty" warMapCell t6b).bind (fun t7 =>
  (stageMap "Prices" priceCell t7).bind (fun t8 =>
  stageMap "Rating" ratingCell t8)))))))

/-- Line 104: `return raw_data.head(50)`. -/
def transform (t : Table) : Option Table :=
  (transformFull t).map (List.map (fun c => (c.1, c.2.take 50)))

/-- Name hygiene invariant: no column label contains "Unnamed:". -/
def okNames (t : Table) : Prop := ∀ c ∈ t, strContains c.1 unnamedKey = false

/-- All columns have the same number of rows. -/
def wf (n : Nat) (t : Table) : Prop := ∀ c ∈ t, c.2.length = n

/-- A concrete input table exercising the full pipeline (used by the
    witnesses of the table-level claims). -/
def witT : Table :=
  [("Unnamed: 0", [Cell.s "0"]),
   ("xUnnamed: y", [Cell.s "artifact"]),
   ("Title", [Cell.s "Dell Inspiron 15"]),
   ("Processor", [Cell.s "Intel Core 7 Processor (12th Gen)"]),
   ("RAM", [Cell.s "8 GB DDR4 3200MHz"]),
   ("Operating_System", [Cell.s "64 bit Windows 11 Home Operating System"]),
   ("Warranty", [Cell.s "1 Years Warranty"]),
   ("Prices", [Cell.s "₹45,990"]),
   ("Rating", [Cell.s "45,990"])]

/-- The normalized output of `witT`. -/
def witOut : Table :=
  [("Processor", [Cell.s "Intel Core i7 Processor"]),
   ("RAM", [Cell.s "8 GB"]),
   ("Operating_System", [Cell.s "64 bit Windows 11 Operating System"]),
   ("Warranty", [Cell.s "1 Year"]),
   ("Prices", [Cell.n 45990]),
   ("Rating", [Cell.s "45,990"]),
   ("Brand_Name", [Cell.s "Dell"])]

/- ### Basic facts about `tokens` -/

theorem tokA_append_run (t : L) (rest acc : L) (ht : ∀ c ∈ t, ws c = false) :
    tokA (t ++ rest) acc = tokA rest (t.reverse ++ acc) := by
  induction t generalizing acc with
  | nil => simp
  | cons c t ih =>
    have hc : ws c = false := ht c (by simp)
    simp only [List.cons_append, tokA, hc, Bool.false_eq_true, if_false, List.append_eq]
    rw [ih _ (fun d hd => ht d (by simp [hd]))]
    simp

theorem tokens_nil : tokens [] = [] := rfl

theorem tokA_sp (rest : L) (acc : L) (h : acc ≠ []) :
    tokA (' ' :: rest) acc = acc.reverse :: tokA rest [] := by
  have : ws ' ' = true := rfl
  simp [tokA, this, List.isEmpty_iff, h]

theorem tokens_single (t : L) (h : t ≠ []) (ht : ∀ c ∈ t, ws c = false) :
    tokens t = [t] := by
  have := tokA_append_run t [] [] ht
  simp only [List.append_nil] at this
  unfold tokens
  rw [this]
  simp [tokA, List.isEmpty_iff, h]

theorem tokens_joinSp (ts : List L) (h : ∀ t ∈ ts, t ≠ [] ∧ ∀ c ∈ t, ws c = false) :
    tokens (joinSp ts) = ts := by
  induction ts with
  | nil => rfl
  | cons t ts ih =>
    match ts with
    | [] =>
      simp only [joinSp]
      exact tokens_single t (h t (by simp)).1 (h t (by simp)).2
    | t' :: ts' =>
      simp only [joinSp]
      unfold tokens
      rw [tokA_append_run t _ [] (h t (by simp)).2]
      simp only [List.append_nil]
      rw [tokA_sp _ _ (by simp [(h t (by simp)).1])]
      simp only [List.reverse_reverse]
      have := ih (fun u hu => h u (by simp [hu]))
      unfold tokens at this
      rw [this]

theorem tokens_props (l : L) : ∀ t ∈ tokens l, t ≠ [] ∧ ∀ c ∈ t, ws c = false := by
  suffices h : ∀ l acc, (∀ c ∈ acc, ws c = false) →
      ∀ t ∈ tokA l acc, t ≠ [] ∧ ∀ c ∈ t, ws c = false by
    exact h l [] (by simp)
  intro l
  induction l with
  | nil =>
    intro acc hacc t ht
    by_cases hE : acc.isEmpty
    · simp [tokA, hE] at ht
    · simp only [tokA, hE, Bool.false_eq_true, if_false, List.mem_singleton] at ht
      subst ht
      refine ⟨by simpa [List.isEmpty_iff] using hE, ?_⟩
      intro c hc
      exact hacc c (by simpa using hc)
  | cons c cs ih =>
    intro acc hacc t ht
    by_cases hc : ws c
    · by_cases hE : acc.isEmpty
      · simp only [tokA, hc, if_true, hE, if_true] at ht
        exact ih [] (by simp) t ht
      · simp only [tokA, hc, if_true, hE, Bool.false_eq_true, if_false,
          List.mem_cons] at ht
        rcases ht with h1 | h2
        · subst h1
          refine ⟨by simpa [List.isEmpty_iff] using hE, ?_⟩
          intro d hd
          exact hacc d (by simpa using hd)
        · exact ih [] (by simp) t h2
    · simp only [tokA, hc, Bool.false_eq_true, if_false] at ht
      refine ih (c :: acc) ?_ t ht
      intro d hd
      rcases List.mem_cons.mp hd with h1 | h2
      · subst h1; simpa using hc
      · exact hacc d h2

theorem tokens_twoTok (l : L) : tokens (twoTok l) = (tokens l).take 2 := by
  unfold twoTok
  exact tokens_joinSp _ (fun t ht => tokens_props l t (List.take_subset 2 _ ht))

theorem twoTok_idem (l : L) : twoTok (twoTok l) = twoTok l := by
  show joinSp ((tokens (twoTok l)).take 2) = twoTok l
  rw [tokens_twoTok, List.take_take, min_self]
  rfl

theorem brandTok_idem (l t : L) (h : brandTok l = some t) : brandTok t = some t := by
  unfold brandTok at h ⊢
  have ht : t ∈ tokens l := by
    cases hl : tokens l with
    | nil => simp [hl] at h
    | cons a as => simp only [hl, List.head?_cons, Option.some.injEq] at h; simp [hl, h]
  rw [tokens_single t (tokens_props l t ht).1 (tokens_props l t ht).2]
  rfl

/- ### Unfolding equations for `replaceAll` -/

theorem raAux_drop (p r : L) : ∀ (l : L) (k : Nat), raAux p r l k = raAux p r (l.drop k) 0 := by
  intro l
  induction l with
  | nil => intro k; cases k <;> rfl
  | cons c cs ih =>
    intro k
    match k with
    | 0 => rfl
    | k + 1 =>
      show raAux p r cs k = _
      rw [ih k]
      rfl

theorem replaceAll_nil (p r : L) : replaceAll p r [] = [] := rfl

theorem replaceAll_cons (p r : L) (c : Char) (cs : L) :
    replaceAll p r (c :: cs) =
      if 0 < p.length ∧ p.isPrefixOf (c :: cs) then
        r ++ replaceAll p r (cs.drop (p.length - 1))
      else c :: replaceAll p r cs := by
  have h0 : raAux p r (c :: cs) 0 =
      if 0 < p.length ∧ p.isPrefixOf (c :: cs) then r ++ raAux p r cs (p.length - 1)
      else c :: raAux p r cs 0 := rfl
  show raAux p r (c :: cs) 0 = _
  rw [h0, raAux_drop p r cs (p.length - 1)]
  rfl

/- ### A small toolbox about prefixes, suffixes and substrings -/

theorem prefB_iff {l₁ l₂ : L} : l₁.isPrefixOf l₂ = true ↔ l₁ <+: l₂ := by
  exact List.isPrefixOf_iff_prefix

theorem sufB_iff {l₁ l₂ : L} : isSufB l₁ l₂ = true ↔ l₁ <:+ l₂ := by
  unfold isSufB
  rw [prefB_iff]
  exact List.reverse_prefix

theorem infix_iff_drop {p l : L} : p <:+: l ↔ ∃ i, p <+: l.drop i := by
  constructor
  · rintro ⟨u, v, h⟩
    refine ⟨u.length, ?_⟩
    rw [← h, List.append_assoc, List.drop_left]
    exact List.prefix_append p v
  · rintro ⟨i, t, ht⟩
    exact ⟨l.take i, t, by rw [List.append_assoc, ht, List.take_append_drop]⟩

theorem infix_of_infix_drop {p l : L} {i : Nat} (h : p <:+: l.drop i) : p <:+: l :=
  h.trans (List.drop_suffix i l).isInfix

theorem containsSub_iff {p l : L} : containsSub p l = true ↔ p <:+: l := by
  induction l with
  | nil =>
    simp only [containsSub, List.isEmpty_iff]
    constructor
    · rintro rfl; exact List.nil_infix
    · intro h; exact List.eq_nil_of_infix_nil h
  | cons c cs ih =>
    simp only [containsSub, Bool.or_eq_true, prefB_iff, ih]
    constructor
    · rintro (h | h)
      · exact h.isInfix
      · exact (List.infix_cons h)
    · intro h
      rcases h with ⟨u, v, huv⟩
      match u with
      | [] => left; exact ⟨v, by simpa using huv⟩
      | d :: u' =>
        right
        refine infix_iff_drop.mpr ⟨u'.length, ?_⟩
        have : u' ++ p ++ v = cs := by
          rw [List.cons_append, List.cons_append, List.cons.injEq] at huv
          exact huv.2
        rw [← this, List.append_assoc, List.drop_left]
        exact List.prefix_append p v

theorem infix_cons_split {p : L} {c : Char} {l : L} (h : p <:+: c :: l) :
    p <+: c :: l ∨ p <:+: l := by
  rcases h with ⟨u, v, huv⟩
  match u with
  | [] => left; exact ⟨v, by simpa using huv⟩
  | d :: u' =>
    right
    refine ⟨u', v, ?_⟩
    rw [List.cons_append, List.cons_append, List.cons.injEq] at huv
    exact huv.2

theorem pref_append_split {a b p : L} :
    p <+: a ++ b ↔ p <+: a ∨ (a <+: p ∧ p.drop a.length <+: b) := by
  induction a generalizing p with
  | nil =>
    simp only [List.nil_append, List.length_nil, List.drop_zero, List.nil_prefix, true_and]
    constructor
    · intro h; right; exact h
    · rintro (h | h)
      · rw [List.prefix_nil.mp h]; exact List.nil_prefix
      · exact h
  | cons c a' ih =>
    match p with
    | [] =>
      simp [ List.nil_prefix]
    | d :: p' =>
      constructor
      · intro h
        rw [List.cons_append] at h
        obtain ⟨hdc, h'⟩ := List.cons_prefix_cons.mp h
        rcases ih.mp h' with h1 | ⟨h2, h3⟩
        · left; exact List.cons_prefix_cons.mpr ⟨hdc, h1⟩
        · right
          exact ⟨List.cons_prefix_cons.mpr ⟨hdc.symm, h2⟩, h3⟩
      · rintro (h | ⟨h2, h3⟩)
        · obtain ⟨hdc, h1⟩ := List.cons_prefix_cons.mp h
          rw [List.cons_append]
          exact List.cons_prefix_cons.mpr ⟨hdc, ih.mpr (Or.inl h1)⟩
        · obtain ⟨hcd, h2'⟩ := List.cons_prefix_cons.mp h2
          rw [List.cons_append]
          refine List.cons_prefix_cons.mpr ⟨hcd.symm, ih.mpr (Or.inr ⟨h2', ?_⟩)⟩
          simpa using h3

theorem infix_append_split {p a b : L} (h : p <:+: a ++ b) :
    p <:+: a ∨ p <:+: b ∨
      ∃ k, 0 < k ∧ k < p.length ∧ p.take k <:+ a ∧ p.drop k <+: b := by
  rcases infix_iff_drop.mp h with ⟨i, hi⟩
  by_cases hia : i < a.length
  · rw [List.drop_append_of_le_length (Nat.le_of_lt hia)] at hi
    rcases pref_append_split.mp hi with h1 | ⟨h2, h3⟩
    · exact Or.inl (infix_of_infix_drop (h1.isInfix))
    · have hklen : (a.drop i).length ≤ p.length := h2.length_le
      rw [List.length_drop] at hklen h3
      by_cases hk : a.length - i < p.length
      · right; right
        refine ⟨a.length - i, by omega, hk, ?_, h3⟩
        have : p.take (a.length - i) = a.drop i := by
          rcases h2 with ⟨t, ht⟩
          rw [← ht, List.take_left']
          rw [List.length_drop]
        rw [this]
        exact (List.drop_suffix i a)
      · left
        have : a.drop i = p := by
          refine List.IsPrefix.eq_of_length_le h2 ?_
          rw [List.length_drop]; omega
        rw [← this]
        exact (List.drop_suffix i a).isInfix
  · right; left
    have : (a ++ b).drop i = b.drop (i - a.length) := by
      have h2 : i = a.length + (i - a.length) := by omega
      rw [h2, List.drop_append]
      congr 1
      omega
    rw [this] at hi
    exact infix_of_infix_drop hi.isInfix

theorem containsSub_eq_false {p l : L} : containsSub p l = false ↔ ¬ p <:+: l := by
  rw [← containsSub_iff]
  cases containsSub p l <;> simp

/- ### `replaceAll` leaves occurrence-free strings unchanged -/

theorem replaceAll_of_not_contains {p r : L} :
    ∀ s : L, containsSub p s = false → replaceAll p r s = s := by
  intro s
  induction s with
  | nil => intro _; rfl
  | cons c cs ih =>
    intro h
    simp only [containsSub, Bool.or_eq_false_iff] at h
    rw [replaceAll_cons, if_neg, ih h.2]
    rintro ⟨-, hpre⟩
    rw [h.1] at hpre
    exact Bool.false_ne_true hpre

theorem mem_replaceAll {p r : L} :
    ∀ (n : Nat) (s : L), s.length ≤ n → ∀ c ∈ replaceAll p r s, c ∈ s ∨ c ∈ r := by
  intro n
  induction n with
  | zero =>
    intro s hs
    have hsnil : s = [] := List.length_eq_zero.mp (Nat.le_zero.mp hs)
    subst hsnil
    simp [replaceAll_nil]
  | succ n ih =>
    intro s hs c hc
    match s with
    | [] => simp [replaceAll_nil] at hc
    | d :: ds =>
      rw [replaceAll_cons] at hc
      by_cases hm : 0 < p.length ∧ p.isPrefixOf (d :: ds)
      · rw [if_pos hm] at hc
        rcases List.mem_append.mp hc with h1 | h2
        · right; exact h1
        · have hlen : (ds.drop (p.length - 1)).length ≤ n := by
            rw [List.length_drop]
            simp only [List.length_cons] at hs
            omega
          rcases ih _ hlen c h2 with h3 | h4
          · left
            exact List.mem_cons_of_mem d (List.drop_subset _ _ h3)
          · right; exact h4
      · rw [if_neg hm] at hc
        rcases List.mem_cons.mp hc with h1 | h2
        · left; simp [h1]
        · have hlen : ds.length ≤ n := by simp only [List.length_cons] at hs; omega
          rcases ih ds hlen c h2 with h3 | h4
          · left; exact List.mem_cons_of_mem d h3
          · right; exact h4

theorem replaceAll_ne_nil {p r : L} (hr : r ≠ []) (s : L) (hs : s ≠ []) :
    replaceAll p r s ≠ [] := by
  match s with
  | c :: cs =>
    rw [replaceAll_cons]
    by_cases hm : 0 < p.length ∧ p.isPrefixOf (c :: cs)
    · rw [if_pos hm]; simp [hr]
    · rw [if_neg hm]; simp

theorem head?_replaceAll {p r : L} (hr : r ≠ []) (s : L) :
    (replaceAll p r s).head? = s.head? ∨ (replaceAll p r s).head? = r.head? := by
  match s with
  | [] => left; rfl
  | c :: cs =>
    rw [replaceAll_cons]
    by_cases hm : 0 < p.length ∧ p.isPrefixOf (c :: cs)
    · rw [if_pos hm]
      match r with
      | d :: ds => right; rfl
    · left; rw [if_neg hm]; rfl

theorem getLast?_cons_ne {c : Char} {cs : L} (h : cs ≠ []) :
    (c :: cs).getLast? = cs.getLast? := by
  match cs with
  | d :: ds => rfl

theorem getLast?_append_right {l₁ l₂ : L} (h : l₂ ≠ []) :
    (l₁ ++ l₂).getLast? = l₂.getLast? := by
  induction l₁ with
  | nil => rfl
  | cons c cs ih =>
    rw [List.cons_append, getLast?_cons_ne ?_, ih]
    intro he
    rcases List.append_eq_nil.mp he with ⟨-, h2⟩
    exact h h2

theorem getLast?_drop_of_ne_nil : ∀ (n : Nat) (l : L), l.drop n ≠ [] →
    (l.drop n).getLast? = l.getLast? := by
  intro n
  induction n with
  | zero => intro l _; rfl
  | succ n ih =>
    intro l h
    match l with
    | [] => simp at h
    | c :: cs =>
      show (cs.drop n).getLast? = (c :: cs).getLast?
      have hcs : cs.drop n ≠ [] := h
      rw [ih cs hcs]
      have hne : cs ≠ [] := by
        intro he; rw [he] at hcs; simp at hcs
      exact (getLast?_cons_ne hne).symm

theorem getLast?_replaceAll {p r : L} (hr : r ≠ []) :
    ∀ (n : Nat) (s : L), s.length ≤ n →
      (replaceAll p r s).getLast? = s.getLast? ∨
      (replaceAll p r s).getLast? = r.getLast? := by
  intro n
  induction n with
  | zero =>
    intro s hs
    have hsnil : s = [] := List.length_eq_zero.mp (Nat.le_zero.mp hs)
    subst hsnil
    left; rfl
  | succ n ih =>
    intro s hs
    match s with
    | [] => left; rfl
    | c :: cs =>
      rw [replaceAll_cons]
      by_cases hm : 0 < p.length ∧ p.isPrefixOf (c :: cs)
      · rw [if_pos hm]
        rcases eq_or_ne (replaceAll p r (cs.drop (p.length - 1))) [] with hnil | hnn
        · rw [hnil, List.append_nil]; right; rfl
        · rw [getLast?_append_right hnn]
          have hlen : (cs.drop (p.length - 1)).length ≤ n := by
            rw [List.length_drop]; simp only [List.length_cons] at hs; omega
          rcases ih _ hlen with h1 | h2
          · have hs'nn : cs.drop (p.length - 1) ≠ [] := by
              intro he; rw [he, replaceAll_nil] at hnn; exact hnn rfl
            left
            rw [h1, getLast?_drop_of_ne_nil _ _ hs'nn]
            have : cs ≠ [] := by
              intro he; rw [he] at hs'nn; simp at hs'nn
            exact (getLast?_cons_ne this).symm
          · right; rw [h2]
      · rw [if_neg hm]
        rcases eq_or_ne (replaceAll p r cs) [] with hnil | hnn
        · have hcs : cs = [] := by
            by_contra hne
            exact replaceAll_ne_nil hr cs hne hnil
          subst hcs
          left; rw [replaceAll_nil]
        · rw [getLast?_cons_ne hnn]
          have hcsnn : cs ≠ [] := by
            intro he; rw [he, replaceAll_nil] at hnn; exact hnn rfl
          have hlen : cs.length ≤ n := by simp only [List.length_cons] at hs; omega
          rcases ih cs hlen with h1 | h2
          · left; rw [h1]; exact (getLast?_cons_ne hcsnn).symm
          · right; exact h2

/- ### Replacement does not create new occurrences (under boundary
     conditions on the pattern and the replacement, all decidable) -/

/-- A proper nonempty suffix of `q` that prefixes the output of
    `replaceAll p r` already prefixes the input. -/
theorem drop_pref_replaceAll {q p r : L}
    (hG3 : ∀ j, j < q.length → 0 < j → ((q.drop j).isPrefixOf r) = false)
    (hG4 : ∀ j, j < q.length → 0 < j → (r.isPrefixOf (q.drop j)) = false) :
    ∀ (n : Nat) (s : L), s.length ≤ n → ∀ j, 0 < j → j < q.length →
      q.drop j <+: replaceAll p r s → q.drop j <+: s := by
  intro n
  induction n with
  | zero =>
    intro s hs j _ _ hpre
    have hsnil : s = [] := List.length_eq_zero.mp (Nat.le_zero.mp hs)
    subst hsnil
    rwa [replaceAll_nil] at hpre
  | succ n ih =>
    intro s hs j hj hjq hpre
    match s with
    | [] => rwa [replaceAll_nil] at hpre
    | c :: cs =>
      rw [replaceAll_cons] at hpre
      by_cases hm : 0 < p.length ∧ p.isPrefixOf (c :: cs)
      · rw [if_pos hm] at hpre
        rcases pref_append_split.mp hpre with h1 | ⟨h2, h3⟩
        · have := hG3 j hjq hj
          rw [prefB_iff.mpr h1] at this
          exact absurd this (by simp)
        · have := hG4 j hjq hj
          rw [prefB_iff.mpr h2] at this
          exact absurd this (by simp)
      · rw [if_neg hm] at hpre
        have hq : q.drop j = q[j] :: q.drop (j + 1) := List.drop_eq_getElem_cons hjq
        rw [hq] at hpre ⊢
        obtain ⟨hcq, hpre'⟩ := List.cons_prefix_cons.mp hpre
        by_cases hj1 : j + 1 < q.length
        · have hlen : cs.length ≤ n := by simp only [List.length_cons] at hs; omega
          exact List.cons_prefix_cons.mpr ⟨hcq, ih cs hlen (j + 1) (by omega) hj1 hpre'⟩
        · have hnil : q.drop (j + 1) = [] := List.drop_eq_nil_of_le (by omega)
          rw [hnil]
          exact List.cons_prefix_cons.mpr ⟨hcq, List.nil_prefix⟩

/-- After replacing every occurrence of `p` by `r`, no occurrence of `p`
    remains (the boundary conditions forbid occurrences overlapping a
    copy of `r`). -/
theorem not_contains_replaceAll_self {p r : L} (hp : p ≠ [])
    (h1 : containsSub p r = false)
    (h2 : ∀ k, k < p.length → 0 < k → isSufB (p.take k) r = false)
    (hG3 : ∀ j, j < p.length → 0 < j → ((p.drop j).isPrefixOf r) = false)
    (hG4 : ∀ j, j < p.length → 0 < j → (r.isPrefixOf (p.drop j)) = false) :
    ∀ s : L, containsSub p (replaceAll p r s) = false := by
  suffices h : ∀ (n : Nat) (s : L), s.length ≤ n → ¬ p <:+: replaceAll p r s by
    intro s
    exact containsSub_eq_false.mpr (h s.length s le_rfl)
  intro n
  induction n with
  | zero =>
    intro s hs hinf
    have hsnil : s = [] := List.length_eq_zero.mp (Nat.le_zero.mp hs)
    subst hsnil
    rw [replaceAll_nil] at hinf
    exact hp (List.eq_nil_of_infix_nil hinf)
  | succ n ih =>
    intro s hs hinf
    match s with
    | [] =>
      rw [replaceAll_nil] at hinf
      exact hp (List.eq_nil_of_infix_nil hinf)
    | c :: cs =>
      rw [replaceAll_cons] at hinf
      by_cases hm : 0 < p.length ∧ p.isPrefixOf (c :: cs)
      · rw [if_pos hm] at hinf
        rcases infix_append_split hinf with ha | hb | ⟨k, hk0, hkp, hks, -⟩
        · exact containsSub_eq_false.mp h1 ha
        · have hlen : (cs.drop (p.length - 1)).length ≤ n := by
            rw [List.length_drop]; simp only [List.length_cons] at hs; omega
          exact ih _ hlen hb
        · have := h2 k hkp hk0
          rw [sufB_iff.mpr hks] at this
          exact absurd this (by simp)
      · rw [if_neg hm] at hinf
        rcases infix_cons_split hinf with hpre | hmem
        · match p, hp with
          | d :: p', hp =>
            obtain ⟨hdc, hpre'⟩ := List.cons_prefix_cons.mp hpre
            have hcpre : (d :: p').isPrefixOf (c :: cs) = true := by
              refine prefB_iff.mpr (List.cons_prefix_cons.mpr ⟨hdc, ?_⟩)
              match p', hpre', hG3, hG4 with
              | [], _, _, _ => exact List.nil_prefix
              | e :: p'', hpre', hG3, hG4 =>
                have hcall := drop_pref_replaceAll
                  (q := d :: e :: p'') (p := d :: e :: p'') (r := r)
                  hG3 hG4
                  n cs (by simp only [List.length_cons] at hs; omega) 1 (by omega)
                  (by simp) hpre'
                exact hcall
            exact hm ⟨by simp, hcpre⟩
        · exact ih cs (by simp only [List.length_cons] at hs; omega) hmem

/-- `replaceAll p r` creates no occurrence of a *different* pattern `q`
    that was absent from the input. -/
theorem not_contains_replaceAll_other {q p r : L} (hq : q ≠ [])
    (h1 : containsSub q r = false)
    (h2 : ∀ k, k < q.length → 0 < k → isSufB (q.take k) r = false)
    (hG3 : ∀ j, j < q.length → 0 < j → ((q.drop j).isPrefixOf r) = false)
    (hG4 : ∀ j, j < q.length → 0 < j → (r.isPrefixOf (q.drop j)) = false) :
    ∀ s : L, containsSub q s = false →
      containsSub q (replaceAll p r s) = false := by
  suffices h : ∀ (n : Nat) (s : L), s.length ≤ n → ¬ q <:+: s
      → ¬ q <:+: replaceAll p r s by
    intro s hs
    exact containsSub_eq_false.mpr (h s.length s le_rfl (containsSub_eq_false.mp hs))
  intro n
  induction n with
  | zero =>
    intro s hs hqs hinf
    have hsnil : s = [] := List.length_eq_zero.mp (Nat.le_zero.mp hs)
    subst hsnil
    rw [replaceAll_nil] at hinf
    exact hqs hinf
  | succ n ih =>
    intro s hs hqs hinf
    match s with
    | [] => rw [replaceAll_nil] at hinf; exact hqs hinf
    | c :: cs =>
      rw [replaceAll_cons] at hinf
      by_cases hm : 0 < p.length ∧ p.isPrefixOf (c :: cs)
      · rw [if_pos hm] at hinf
        rcases infix_append_split hinf with ha | hb | ⟨k, hk0, hkp, hks, -⟩
        · exact containsSub_eq_false.mp h1 ha
        · have hlen : (cs.drop (p.length - 1)).length ≤ n := by
            rw [List.length_drop]; simp only [List.length_cons] at hs; omega
          refine ih _ hlen ?_ hb
          intro hinf2
          have : (c :: cs).drop p.length = cs.drop (p.length - 1) := by
            have : p.length = (p.length - 1) + 1 := by omega
            rw [this]
            rfl
          exact hqs (infix_of_infix_drop (i := p.length) (by rw [this]; exact hinf2))
        · have := h2 k hkp hk0
          rw [sufB_iff.mpr hks] at this
          exact absurd this (by simp)
      · rw [if_neg hm] at hinf
        rcases infix_cons_split hinf with hpre | hmem
        · match q, hq, hqs with
          | d :: q', hq, hqs =>
            obtain ⟨hdc, hpre'⟩ := List.cons_prefix_cons.mp hpre
            refine hqs ?_
            refine List.IsPrefix.isInfix ?_
            refine List.cons_prefix_cons.mpr ⟨hdc, ?_⟩
            match q', hpre', hG3, hG4 with
            | [], _, _, _ => exact List.nil_prefix
            | e :: q'', hpre', hG3, hG4 =>
              have hcall := drop_pref_replaceAll
                (q := d :: e :: q'') (p := p) (r := r)
                hG3 hG4
                n cs (by simp only [List.length_cons] at hs; omega) 1 (by omega)
                (by simp) hpre'
              exact hcall
        · refine ih cs (by simp only [List.length_cons] at hs; omega) ?_ hmem
          intro hinf2
          exact hqs (List.infix_cons hinf2)

theorem head?_dropWhile_ws {l : L} {c : Char} (h : (l.dropWhile ws).head? = some c) :
    ws c = false := by
  induction l with
  | nil => simp [List.dropWhile] at h
  | cons d ds ih =>
    rw [List.dropWhile_cons] at h
    by_cases hd : ws d
    · rw [if_pos hd] at h; exact ih h
    · rw [if_neg hd] at h
      simp only [List.head?_cons, Option.some.injEq] at h
      subst h
      simpa using hd

theorem dropWhile_eq_self_of_head {l : L} (h : ∀ c, l.head? = some c → ws c = false) :
    l.dropWhile ws = l := by
  match l with
  | [] => rfl
  | c :: cs =>
    rw [List.dropWhile_cons, if_neg]
    simp [h c rfl]

theorem getLast?_dropWhile_ws {l : L} (h : l.dropWhile ws ≠ []) :
    (l.dropWhile ws).getLast? = l.getLast? := by
  induction l with
  | nil => simp at h
  | cons d ds ih =>
    rw [List.dropWhile_cons] at h ⊢
    by_cases hd : ws d
    · rw [if_pos hd] at h ⊢
      rw [ih h]
      have hds : ds ≠ [] := by
        intro he
        rw [he] at h
        simp [List.dropWhile] at h
      exact (getLast?_cons_ne hds).symm
    · rw [if_neg hd]

theorem edgeOk_stripL (l : L) : edgeOk (stripL l) = true := by
  unfold stripL edgeOk
  apply Bool.and_eq_true_iff.mpr
  constructor
  · cases hh : ((l.dropWhile ws).reverse.dropWhile ws).reverse.head? with
    | none => rfl
    | some c =>
      rw [List.head?_reverse] at hh
      rcases eq_or_ne ((l.dropWhile ws).reverse.dropWhile ws) [] with h0 | h0
      · rw [h0] at hh; simp at hh
      · rw [getLast?_dropWhile_ws h0, List.getLast?_reverse] at hh
        have hc : ws c = false := head?_dropWhile_ws hh
        simp [hc]
  · cases hh : ((l.dropWhile ws).reverse.dropWhile ws).reverse.getLast? with
    | none => rfl
    | some c =>
      rw [List.getLast?_reverse] at hh
      have hc : ws c = false := head?_dropWhile_ws hh
      simp [hc]

theorem stripL_of_edgeOk {l : L} (h : edgeOk l = true) : stripL l = l := by
  unfold edgeOk at h
  obtain ⟨h1, h2⟩ := Bool.and_eq_true_iff.mp h
  have hhead : ∀ c, l.head? = some c → ws c = false := by
    intro c hc
    rw [hc] at h1
    simpa using h1
  have hlast : ∀ c, l.getLast? = some c → ws c = false := by
    intro c hc
    rw [hc] at h2
    simpa using h2
  unfold stripL
  rw [dropWhile_eq_self_of_head hhead]
  rw [dropWhile_eq_self_of_head]
  · exact List.reverse_reverse l
  · intro c hc
    rw [List.head?_reverse] at hc
    exact hlast c hc

theorem edgeOk_replaceAll {p r : L} (hr : r ≠ []) (hre : edgeOk r = true)
    {s : L} (hs : edgeOk s = true) : edgeOk (replaceAll p r s) = true := by
  unfold edgeOk at hre hs ⊢
  obtain ⟨hr1, hr2⟩ := Bool.and_eq_true_iff.mp hre
  obtain ⟨hs1, hs2⟩ := Bool.and_eq_true_iff.mp hs
  apply Bool.and_eq_true_iff.mpr
  constructor
  · rcases head?_replaceAll (p := p) (r := r) hr s with h | h <;> rw [h]
    · exact hs1
    · exact hr1
  · rcases getLast?_replaceAll (p := p) hr s.length s le_rfl with h | h <;> rw [h]
    · exact hs2
    · exact hr2

/- ### Idempotence of the individual string rules -/

theorem mem_stripL {x : L} {c : Char} (h : c ∈ stripL x) : c ∈ x := by
  unfold stripL at h
  rw [List.mem_reverse] at h
  have h2 := (List.dropWhile_suffix (l := (x.dropWhile ws).reverse) ws).subset h
  rw [List.mem_reverse] at h2
  exact (List.dropWhile_suffix ws).subset h2

theorem osL_idem (l : L) : osL (osL l) = osL l :=
  replaceAll_of_not_contains _
    (not_contains_replaceAll_self (by decide) (by decide) (by decide) (by decide)
      (by decide) l)

theorem ratingL_idem (l : L) : ratingL (ratingL l) = ratingL l := by
  have hA : containsSub pRat1 (replaceAll pRat2 rRat (replaceAll pRat1 rRat l)) = false :=
    not_contains_replaceAll_other (q := pRat1) (p := pRat2) (r := rRat)
      (by decide) (by decide) (by decide) (by decide) (by decide) _
      (not_contains_replaceAll_self (by decide) (by decide) (by decide) (by decide)
        (by decide) l)
  have hB : containsSub pRat2 (replaceAll pRat2 rRat (replaceAll pRat1 rRat l)) = false :=
    not_contains_replaceAll_self (by decide) (by decide) (by decide) (by decide) (by decide) _
  show replaceAll pRat2 rRat (replaceAll pRat1 rRat (ratingL l)) = ratingL l
  rw [show replaceAll pRat1 rRat (ratingL l) = ratingL l from
    replaceAll_of_not_contains _ hA]
  exact replaceAll_of_not_contains _ hB

theorem procL_idem (l : L) : procL (procL l) = procL l := by
  have hy : procL l = replaceAll pI7 rI7 (replaceAll pI5 rI5 (stripL (takeB l))) := rfl
  have hnopar : ∀ c ∈ procL l, (!(c == '(')) = true := by
    intro c hc
    rw [hy] at hc
    rcases mem_replaceAll _ _ le_rfl c hc with h1 | h1
    · rcases mem_replaceAll _ _ le_rfl c h1 with h2 | h2
      · have h3 : c ∈ takeB l := mem_stripL h2
        unfold takeB at h3
        exact List.mem_takeWhile_imp (p := fun c => !(c == '(')) h3
      · exact (by decide : ∀ c ∈ rI5, (!(c == '(')) = true) c h2
    · exact (by decide : ∀ c ∈ rI7, (!(c == '(')) = true) c h1
  have h1 : takeB (procL l) = procL l := List.takeWhile_eq_self_iff.mpr hnopar
  have h2 : stripL (procL l) = procL l := by
    apply stripL_of_edgeOk
    rw [hy]
    apply edgeOk_replaceAll (by decide) (by decide)
    apply edgeOk_replaceAll (by decide) (by decide)
    exact edgeOk_stripL _
  have h3 : containsSub pI5 (procL l) = false := by
    rw [hy]
    exact not_contains_replaceAll_other (q := pI5) (p := pI7) (r := rI7)
      (by decide) (by decide) (by decide) (by decide) (by decide) _
      (not_contains_replaceAll_self (by decide) (by decide) (by decide) (by decide)
        (by decide) _)
  have h4 : containsSub pI7 (procL l) = false := by
    rw [hy]
    exact not_contains_replaceAll_self (by decide) (by decide) (by decide) (by decide)
      (by decide) _
  show replaceAll pI7 rI7 (replaceAll pI5 rI5 (stripL (takeB (procL l)))) = procL l
  rw [h1, h2, replaceAll_of_not_contains _ h3, replaceAll_of_not_contains _ h4]

theorem priceCleanL_idem (l : L) : priceCleanL (priceCleanL l) = priceCleanL l := by
  have hdig : ∀ c ∈ priceCleanL l, c.isDigit = true := by
    intro c hc
    exact (List.mem_filter.mp hc).2
  have hcomma : (priceCleanL l).filter (fun c => !(c == ',')) = priceCleanL l := by
    apply List.filter_eq_self.mpr
    intro c hc
    have hd := hdig c hc
    have hne : c ≠ ',' := by
      intro he
      rw [he] at hd
      exact absurd hd (by decide)
    simpa using hne
  show ((priceCleanL l).filter (fun c => !(c == ','))).filter (fun c => c.isDigit)
      = priceCleanL l
  rw [hcomma]
  exact List.filter_eq_self.mpr hdig

/-- Applying the warranty replacement loop to a value containing no key
    leaves it unchanged. -/
theorem foldRepl_no_key : ∀ (ps : List (L × L)) (l : L),
    (∀ kv ∈ ps, containsSub kv.1 l = false) →
    ps.foldl (fun a kv => replaceAll kv.1 kv.2 a) l = l := by
  intro ps
  induction ps with
  | nil => intro l _; rfl
  | cons kv ps ih =>
    intro l h
    rw [List.foldl_cons,
      replaceAll_of_not_contains _ (h kv (by simp))]
    exact ih l (fun kv' h' => h kv' (by simp [h']))

/- ### Table lemmas -/

theorem fst_ow (m : String) (v : List Cell) (c : String × List Cell) :
    (if c.1 == m then (c.1, v) else c).1 = c.1 := by
  by_cases h : (c.1 == m) = true
  · rw [if_pos h]
  · rw [Bool.not_eq_true] at h
    simp [h]

theorem find?_ow_comp (m m' : String) (v : List Cell) (t : Table) :
    (t.map (fun c => if c.1 == m then (c.1, v) else c)).find? (fun c => c.1 == m')
      = (t.find? (fun c => c.1 == m')).map
          (fun c => if c.1 == m then (c.1, v) else c) := by
  rw [List.find?_map]
  have hp : ((fun c : String × List Cell => c.1 == m') ∘
      (fun c => if c.1 == m then (c.1, v) else c)) = (fun c => c.1 == m') := by
    funext c
    simp only [Function.comp_apply]
    rw [fst_ow]
  rw [hp]

theorem getCol_setCol_self (t : Table) (m : String) (v : List Cell) :
    getCol (setCol t m v) m = some v := by
  unfold getCol setCol
  by_cases h : (t.find? (fun c => c.1 == m)).isSome
  · rw [if_pos h, find?_ow_comp]
    obtain ⟨a, ha⟩ := Option.isSome_iff_exists.mp h
    have hpa := List.find?_some ha
    rw [ha]
    show some ((if a.1 == m then (a.1, v) else a).2) = some v
    rw [if_pos hpa]
  · rw [if_neg h]
    have hnone : t.find? (fun c => c.1 == m) = none :=
      Option.not_isSome_iff_eq_none.mp h
    rw [List.find?_append, hnone]
    simp [List.find?_cons]

theorem getCol_setCol_ne (t : Table) {m m' : String} (v : List Cell) (hne : m' ≠ m) :
    getCol (setCol t m v) m' = getCol t m' := by
  unfold getCol setCol
  by_cases h : (t.find? (fun c => c.1 == m)).isSome
  · rw [if_pos h, find?_ow_comp]
    cases hf : t.find? (fun c => c.1 == m') with
    | none => rfl
    | some a =>
      have hpa := List.find?_some hf
      have ham : a.1 ≠ m := by
        rw [eq_of_beq hpa]
        exact fun he => hne he
      simp [ham, beq_false_of_ne ham]
  · rw [if_neg h, List.find?_append]
    have hlast : List.find? (fun c => c.1 == m') [(m, v)] = none := by
      have hmm : (m == m') = false := beq_false_of_ne (Ne.symm hne)
      simp [List.find?_cons, hmm]
    rw [hlast]
    cases t.find? (fun c => c.1 == m') <;> rfl

theorem getCol_dropCol_self (t : Table) (m : String) :
    getCol (dropCol t m) m = none := by
  unfold getCol dropCol
  induction t with
  | nil => rfl
  | cons c cs ih =>
    obtain ⟨c1, c2⟩ := c
    by_cases hc : c1 = m
    · subst hc
      simpa [List.filter_cons] using ih
    · simpa [List.filter_cons, beq_false_of_ne hc, List.find?_cons] using ih

theorem getCol_dropCol_ne (t : Table) {m m' : String} (hne : m' ≠ m) :
    getCol (dropCol t m) m' = getCol t m' := by
  unfold getCol dropCol
  induction t with
  | nil => rfl
  | cons c cs ih =>
    obtain ⟨c1, c2⟩ := c
    by_cases hc : c1 = m
    · subst hc
      have hne' : (c1 == m') = false := beq_false_of_ne (fun he => hne he.symm)
      simpa [List.filter_cons, List.find?_cons, hne'] using ih
    · cases hcc : (c1 == m') <;>
        simpa [List.filter_cons, beq_false_of_ne hc, List.find?_cons, hcc] using ih

theorem mem_setCol {t : Table} {m : String} {v : List Cell} {c : String × List Cell}
    (h : c ∈ setCol t m v) : c.2 = v ∨ c ∈ t := by
  unfold setCol at h
  by_cases hf : (t.find? (fun c => c.1 == m)).isSome
  · rw [if_pos hf] at h
    obtain ⟨c₀, hc₀, hc⟩ := List.mem_map.mp h
    by_cases hcm : (c₀.1 == m) = true
    · rw [if_pos hcm] at hc
      left
      rw [← hc]
    · rw [Bool.not_eq_true] at hcm
      simp only [hcm, Bool.false_eq_true, if_false] at hc
      right
      rw [← hc]
      exact hc₀
  · rw [if_neg hf] at h
    rcases List.mem_append.mp h with h1 | h1
    · right; exact h1
    · left
      simp only [List.mem_singleton] at h1
      rw [h1]

theorem mem_setCol_fst {t : Table} {m : String} {v : List Cell} {c : String × List Cell}
    (h : c ∈ setCol t m v) : c.1 = m ∨ ∃ c₀ ∈ t, c.1 = c₀.1 := by
  unfold setCol at h
  by_cases hf : (t.find? (fun c => c.1 == m)).isSome
  · rw [if_pos hf] at h
    obtain ⟨c₀, hc₀, hc⟩ := List.mem_map.mp h
    right
    refine ⟨c₀, hc₀, ?_⟩
    by_cases hcm : (c₀.1 == m) = true
    · rw [if_pos hcm] at hc; rw [← hc]
    · rw [Bool.not_eq_true] at hcm
      simp only [hcm, Bool.false_eq_true, if_false] at hc
      rw [← hc]
  · rw [if_neg hf] at h
    rcases List.mem_append.mp h with h1 | h1
    · right; exact ⟨c, h1, rfl⟩
    · left
      simp only [List.mem_singleton] at h1
      rw [h1]

theorem mem_getCol {t : Table} {m : String} {w : List Cell} (h : getCol t m = some w) :
    ∃ c ∈ t, c.2 = w := by
  unfold getCol at h
  cases hf : t.find? (fun c => c.1 == m) with
  | none => rw [hf] at h; exact absurd h (by simp)
  | some c =>
    rw [hf] at h
    have h2 : some c.2 = some w := h
    exact ⟨c, List.mem_of_find?_eq_some hf, Option.some.inj h2⟩

theorem mapME_length {f : Cell → Option Cell} :
    ∀ {l l' : List Cell}, mapME f l = some l' → l'.length = l.length := by
  intro l
  induction l with
  | nil =>
    intro l' h
    simp only [mapME, Option.some.injEq] at h
    rw [← h]
  | cons c cs ih =>
    intro l' h
    unfold mapME at h
    cases hc : f c with
    | none => rw [hc] at h; exact absurd h (by simp)
    | some v =>
      rw [hc] at h
      cases hcs : mapME f cs with
      | none => rw [hcs] at h; exact absurd h (by simp)
      | some vs =>
        rw [hcs] at h
        simp only [Option.some.injEq] at h
        rw [← h]
        simp [ih hcs]

theorem mapME_isSome {f : Cell → Option Cell} :
    ∀ {l : List Cell}, (∀ c ∈ l, (f c).isSome) → (mapME f l).isSome := by
  intro l
  induction l with
  | nil => intro _; rfl
  | cons c cs ih =>
    intro h
    unfold mapME
    obtain ⟨v, hv⟩ := Option.isSome_iff_exists.mp (h c (by simp))
    obtain ⟨vs, hvs⟩ := Option.isSome_iff_exists.mp (ih (fun d hd => h d (by simp [hd])))
    rw [hv, hvs]
    rfl

/- ### Stage inversion lemmas -/

theorem stageMap_inv {nm : String} {f : Cell → Cell} {t t' : Table}
    (h : stageMap nm f t = some t') :
    ∃ col, getCol t nm = some col ∧ strAccessorOk col = true ∧
      t' = setCol t nm (col.map f) := by
  obtain ⟨col, hcol, h2⟩ := Option.bind_eq_some.mp h
  by_cases hok : strAccessorOk col = true
  · rw [if_pos hok] at h2
    exact ⟨col, hcol, hok, (Option.some.inj h2).symm⟩
  · rw [if_neg hok] at h2
    exact absurd h2 (by simp)

theorem stageTrunc_inv {nm : String} {t t' : Table}
    (h : stageTrunc nm t = some t') :
    ∃ col colv, getCol t nm = some col ∧ mapME twoTokCellE col = some colv ∧
      t' = setCol t nm colv := by
  obtain ⟨col, hcol, h2⟩ := Option.bind_eq_some.mp h
  obtain ⟨colv, hcolv, ht'⟩ := Option.map_eq_some'.mp h2
  exact ⟨col, colv, hcol, hcolv, ht'.symm⟩

theorem stageBrand_inv {t t' : Table} (h : stageBrand t = some t') :
    ∃ title, getCol t "Title" = some title ∧ strAccessorOk title = true ∧
      t' = dropCol (setCol t "Brand_Name" (title.map brandCell)) "Title" := by
  obtain ⟨title, htitle, h2⟩ := Option.bind_eq_some.mp h
  by_cases hok : strAccessorOk title = true
  · rw [if_pos hok] at h2
    exact ⟨title, htitle, hok, (Option.some.inj h2).symm⟩
  · rw [if_neg hok] at h2
    exact absurd h2 (by simp)

theorem transformFull_inv {t : Table} {out : Table} (h : transformFull t = some out) :
    ∃ t3 t4 t5 t6 t6b t7 t8,
      stageBrand (dropUnnamed t) = some t3 ∧
      stageMap "Processor" procCell t3 = some t4 ∧
      stageTrunc "RAM" t4 = some t5 ∧
      stageMap "Operating_System" osCell t5 = some t6 ∧
      stageTrunc "Warranty" t6 = some t6b ∧
      stageMap "Warranty" warMapCell t6b = some t7 ∧
      stageMap "Prices" priceCell t7 = some t8 ∧
      stageMap "Rating" ratingCell t8 = some out := by
  unfold transformFull at h
  obtain ⟨t3, h3, h⟩ := Option.bind_eq_some.mp h
  obtain ⟨t4, h4, h⟩ := Option.bind_eq_some.mp h
  obtain ⟨t5, h5, h⟩ := Option.bind_eq_some.mp h
  obtain ⟨t6, h6, h⟩ := Option.bind_eq_some.mp h
  obtain ⟨t6b, h6b, h⟩ := Option.bind_eq_some.mp h
  obtain ⟨t7, h7, h⟩ := Option.bind_eq_some.mp h
  obtain ⟨t8, h8, h⟩ := Option.bind_eq_some.mp h
  exact ⟨t3, t4, t5, t6, t6b, t7, t8, h3, h4, h5, h6, h6b, h7, h8, h⟩

/- ### Stage-level preservation lemmas -/

theorem stageMap_getCol_ne {nm : String} {f : Cell → Cell} {t t' : Table}
    (h : stageMap nm f t = some t') {m : String} (hm : m ≠ nm) :
    getCol t' m = getCol t m := by
  obtain ⟨col, -, -, ht'⟩ := stageMap_inv h
  rw [ht', getCol_setCol_ne _ _ hm]

theorem stageTrunc_getCol_ne {nm : String} {t t' : Table}
    (h : stageTrunc nm t = some t') {m : String} (hm : m ≠ nm) :
    getCol t' m = getCol t m := by
  obtain ⟨col, colv, -, -, ht'⟩ := stageTrunc_inv h
  rw [ht', getCol_setCol_ne _ _ hm]

theorem stageBrand_getCol_ne {t t' : Table} (h : stageBrand t = some t')
    {m : String} (h1 : m ≠ "Brand_Name") (h2 : m ≠ "Title") :
    getCol t' m = getCol t m := by
  obtain ⟨title, -, -, ht'⟩ := stageBrand_inv h
  rw [ht', getCol_dropCol_ne _ h2, getCol_setCol_ne _ _ h1]

theorem stageMap_isSome {nm : String} {f : Cell → Cell} {t : Table} {col : List Cell}
    (hcol : getCol t nm = some col) (hok : strAccessorOk col = true) :
    (stageMap nm f t).isSome := by
  unfold stageMap
  rw [hcol, Option.some_bind, if_pos hok]
  rfl

theorem stageTrunc_isSome {nm : String} {t : Table} {col : List Cell}
    (hcol : getCol t nm = some col)
    (hall : ∀ c ∈ col, (twoTokCellE c).isSome) : (stageTrunc nm t).isSome := by
  unfold stageTrunc
  rw [hcol]
  obtain ⟨colv, hcolv⟩ := Option.isSome_iff_exists.mp (mapME_isSome hall)
  show ((mapME twoTokCellE col).map _).isSome
  rw [hcolv]
  rfl

theorem stageBrand_isSome {t : Table} {title : List Cell}
    (htitle : getCol t "Title" = some title) (hok : strAccessorOk title = true) :
    (stageBrand t).isSome := by
  unfold stageBrand
  rw [htitle, Option.some_bind, if_pos hok]
  rfl

theorem okNames_dropUnnamed (t : Table) : okNames (dropUnnamed t) := by
  intro c hc
  have := (List.mem_filter.mp hc).2
  cases hcc : strContains c.1 unnamedKey
  · rfl
  · rw [hcc] at this; exact absurd this (by decide)

theorem okNames_setCol {t : Table} {m : String} {v : List Cell}
    (hm : strContains m unnamedKey = false) (h : okNames t) :
    okNames (setCol t m v) := by
  intro c hc
  rcases mem_setCol_fst hc with h1 | ⟨c₀, hc₀, h1⟩
  · rw [h1]; exact hm
  · rw [h1]; exact h c₀ hc₀

theorem okNames_dropCol {t : Table} {m : String} (h : okNames t) :
    okNames (dropCol t m) := by
  intro c hc
  exact h c (List.mem_filter.mp hc).1

theorem okNames_stageMap {nm : String} {f : Cell → Cell} {t t' : Table}
    (h : stageMap nm f t = some t') (hm : strContains nm unnamedKey = false)
    (ho : okNames t) : okNames t' := by
  obtain ⟨col, -, -, ht'⟩ := stageMap_inv h
  rw [ht']
  exact okNames_setCol hm ho

theorem okNames_stageTrunc {nm : String} {t t' : Table}
    (h : stageTrunc nm t = some t') (hm : strContains nm unnamedKey = false)
    (ho : okNames t) : okNames t' := by
  obtain ⟨col, colv, -, -, ht'⟩ := stageTrunc_inv h
  rw [ht']
  exact okNames_setCol hm ho

theorem okNames_stageBrand {t t' : Table} (h : stageBrand t = some t')
    (ho : okNames t) : okNames t' := by
  obtain ⟨title, -, -, ht'⟩ := stageBrand_inv h
  rw [ht']
  exact okNames_dropCol (okNames_setCol (by decide) ho)

theorem wf_getCol {n : Nat} {t : Table} {m : String} {col : List Cell}
    (hwf : wf n t) (h : getCol t m = some col) : col.length = n := by
  obtain ⟨c, hc, h2⟩ := mem_getCol h
  rw [← h2]
  exact hwf c hc

theorem wf_setCol {n : Nat} {t : Table} {m : String} {v : List Cell}
    (hwf : wf n t) (hv : v.length = n) : wf n (setCol t m v) := by
  intro c hc
  rcases mem_setCol hc with h1 | h1
  · rw [h1]; exact hv
  · exact hwf c h1

theorem wf_filter {n : Nat} {t : Table} {p : String × List Cell → Bool}
    (hwf : wf n t) : wf n (t.filter p) := by
  intro c hc
  exact hwf c (List.mem_filter.mp hc).1

theorem wf_stageMap {n : Nat} {nm : String} {f : Cell → Cell} {t t' : Table}
    (h : stageMap nm f t = some t') (hwf : wf n t) : wf n t' := by
  obtain ⟨col, hcol, -, ht'⟩ := stageMap_inv h
  rw [ht']
  exact wf_setCol hwf (by rw [List.length_map]; exact wf_getCol hwf hcol)

theorem wf_stageTrunc {n : Nat} {nm : String} {t t' : Table}
    (h : stageTrunc nm t = some t') (hwf : wf n t) : wf n t' := by
  obtain ⟨col, colv, hcol, hcolv, ht'⟩ := stageTrunc_inv h
  rw [ht']
  exact wf_setCol hwf (by rw [mapME_length hcolv]; exact wf_getCol hwf hcol)

theorem wf_stageBrand {n : Nat} {t t' : Table}
    (h : stageBrand t = some t') (hwf : wf n t) : wf n t' := by
  obtain ⟨title, htitle, -, ht'⟩ := stageBrand_inv h
  rw [ht']
  exact wf_filter (wf_setCol hwf (by rw [List.length_map]; exact wf_getCol hwf htitle))

theorem getCol_mapCols (t : Table) (m : String) (g : List Cell → List Cell) :
    getCol (t.map (fun c => (c.1, g c.2))) m = (getCol t m).map g := by
  unfold getCol
  rw [List.find?_map]
  have hp : ((fun c : String × List Cell => c.1 == m) ∘ (fun c => (c.1, g c.2)))
      = (fun c : String × List Cell => c.1 == m) := rfl
  rw [hp]
  cases t.find? (fun c => c.1 == m) <;> rfl

/- ### Supporting lemmas for the claims -/

theorem priceNum_nonneg (l : L) (z : Int) (h : priceNum l = some z) : 0 ≤ z := by
  unfold priceNum at h
  have hall : ∀ c ∈ priceCleanL l, c.isDigit = true := by
    intro c hc
    exact (List.mem_filter.mp hc).2
  cases hl : priceCleanL l with
  | nil => rw [hl] at h; exact absurd h (by simp [toNumericZ])
  | cons c rest =>
    rw [hl] at h
    have hcd : c.isDigit = true := hall c (by rw [hl]; simp)
    have hcm : ¬ c = '-' := by
      intro he; rw [he] at hcd; exact absurd hcd (by decide)
    have hcp : ¬ c = '+' := by
      intro he; rw [he] at hcd; exact absurd hcd (by decide)
    simp only [toNumericZ] at h
    rw [if_neg hcm, if_neg hcp] at h
    by_cases hd : ((c :: rest).all Char.isDigit) = true
    · rw [if_pos hd] at h
      simp only [Option.some.injEq] at h
      rw [← h]
      exact Int.natCast_nonneg _
    · rw [if_neg hd] at h
      exact absurd h (by simp)

theorem unnamed_not_found (t : Table) (m : String)
    (hm : strContains m unnamedKey = true) : getCol (dropUnnamed t) m = none := by
  unfold getCol dropUnnamed
  induction t with
  | nil => rfl
  | cons c cs ih =>
    by_cases hc : strContains c.1 unnamedKey = true
    · simpa [List.filter_cons, hc] using ih
    · rw [Bool.not_eq_true] at hc
      have hne : (c.1 == m) = false := by
        refine beq_false_of_ne ?_
        intro he
        rw [he, hm] at hc
        exact absurd hc (by decide)
      simpa [List.filter_cons, hc, List.find?_cons, hne] using ih

/- ### The claims -/

/-- Claim C2: price normalization first strips commas, then strips every
    remaining non-digit character (a lone minus sign included, so
    negative-looking inputs become positive digit strings), and converts
    the remaining digit string to an integer; an empty or unparsable
    remainder becomes a missing value.  `"₹74,990"` maps to `74990`,
    `"N/A"` to missing, `"-5"` to `5`, and every non-missing normalized
    price is non-negative. -/
theorem claim_C2 :
    priceNumS "₹74,990" = some 74990 ∧
    priceNumS "N/A" = none ∧
    priceNumS "-5" = some 5 ∧
    ∀ (s : String) (z : Int), priceNumS s = some z → 0 ≤ z := by
  refine ⟨by decide, by decide, by decide, ?_⟩
  intro s z h
  exact priceNum_nonneg s.data z h

/-- Claim C2 witness: the non-negativity statement applied at the
    concrete input `"₹74,990"`. -/
theorem claim_C2_witness : priceNumS "₹74,990" = some 74990 ∧ (0 : Int) ≤ 74990 :=
  ⟨claim_C2.1, claim_C2.2.2.2 "₹74,990" 74990 claim_C2.1⟩

/-- Claim C3 counterexample: the warranty value `"11 year"` (already its
    own first two tokens) equals no key of `warranty_replacements`, yet
    the warranty rule changes it to `"11 Year"`, because the source
    applies the mapping via substring `str.replace`, not by key lookup.
    So a value "not matching any mapping key" is not always left as-is. -/
theorem claim_C3_cex :
    warS "11 year" = "11 Year" ∧
    (∀ kv ∈ warPairs, kv.1 ≠ "11 year".data) ∧
    warS "11 year" ≠ "11 year" := by
  refine ⟨by decide, by decide, by decide⟩

/-- Claim C3 (amended): warranty normalization keeps the first two
    tokens, then applies the eight (not ten) entries of
    `warranty_replacements`, in insertion order, as literal substring
    replacements whose values are among "1 Year", "2 Year", "3 Year"; a
    value containing no key as a substring is left as-is, and
    `"1 Yr Warranty"` becomes `"1 Year"`. -/
theorem claim_C3 :
    warPairs.length = 8 ∧
    (∀ kv ∈ warPairs,
      kv.2 = "1 Year".data ∨ kv.2 = "2 Year".data ∨ kv.2 = "3 Year".data) ∧
    (∀ s : String, (∀ kv ∈ warPairs, containsSub kv.1 (twoTok s.data) = false) →
      warS s = twoTokS s) ∧
    warS "1 Yr Warranty" = "1 Year" := by
  refine ⟨by decide, by decide, ?_, by decide⟩
  intro s h
  show String.mk (warMapL (twoTok s.data)) = twoTokS s
  rw [show warMapL (twoTok s.data) = twoTok s.data from
    foldRepl_no_key warPairs (twoTok s.data) h]
  rfl

/-- Claim C3 witness: a warranty value containing no key, `"5 Years"`,
    passes through the rule unchanged. -/
theorem claim_C3_witness : warS "5 Years" = twoTokS "5 Years" ∧ twoTokS "5 Years" = "5 Years" :=
  ⟨claim_C3.2.2.1 "5 Years" (by decide), by decide⟩

/-- Claim C4 counterexample: the rating value `"174,990"` differs from
    both keys of `rating_replacements`, yet the rating rule turns it
    into `"14.3"` (substring replacement), so not every other rating
    value passes through unchanged. -/
theorem claim_C4_cex :
    ratingS "174,990" = "14.3" ∧
    "174,990" ≠ "74,990" ∧ "174,990" ≠ "57,499" ∧
    ratingS "174,990" ≠ "174,990" := by
  refine ⟨by decide, by decide, by decide, by decide⟩

/-- Claim C4 (amended): rating correction applies the two entries
    `"74,990" ↦ "4.3"` and `"57,499" ↦ "4.3"` as literal substring
    replacements; every rating value containing neither key as a
    substring passes through unchanged (so `"4.5"` stays `"4.5"` and
    `"45,990"` is not remapped). -/
theorem claim_C4 :
    (∀ s : String, containsSub pRat1 s.data = false →
      containsSub pRat2 s.data = false → ratingS s = s) ∧
    ratingS "74,990" = "4.3" ∧ ratingS "57,499" = "4.3" ∧
    ratingS "4.5" = "4.5" ∧ ratingS "45,990" = "45,990" := by
  refine ⟨?_, by decide, by decide, by decide, by decide⟩
  intro s h1 h2
  show String.mk (replaceAll pRat2 rRat (replaceAll pRat1 rRat s.data)) = s
  rw [replaceAll_of_not_contains _ h1, replaceAll_of_not_contains _ h2]

/-- Claim C4 witness: the pass-through statement applied at the concrete
    rating `"3.9"`. -/
theorem claim_C4_witness : ratingS "3.9" = "3.9" :=
  claim_C4.1 "3.9" (by decide) (by decide)

/-- Claim C5: processor normalization truncates at the first `(`,
    trims whitespace, and then applies only the two literal corrections
    `Intel Core 5/7 Processor ↦ Intel Core i5/i7 Processor`; a value
    containing neither pattern after truncation passes through
    truncation+trim unchanged, no normalized value contains `(`, and
    `"Intel Core 5 Processor (11th Gen)"` becomes
    `"Intel Core i5 Processor"`. -/
theorem claim_C5 :
    (∀ s : String, ∀ c ∈ (procS s).data, c ≠ '(') ∧
    procS "Intel Core 5 Processor (11th Gen)" = "Intel Core i5 Processor" ∧
    (∀ s : String,
      containsSub pI5 (stripL (takeB s.data)) = false →
      containsSub pI7 (stripL (takeB s.data)) = false →
      procS s = String.mk (stripL (takeB s.data))) := by
  refine ⟨?_, by decide, ?_⟩
  · intro s c hc
    have hmem : c ∈ procL s.data := hc
    rcases mem_replaceAll _ _ le_rfl c hmem with h1 | h1
    · rcases mem_replaceAll _ _ le_rfl c h1 with h2 | h2
      · have h3 : c ∈ takeB s.data := mem_stripL h2
        unfold takeB at h3
        have := List.mem_takeWhile_imp (p := fun c => !(c == '(')) h3
        intro he
        rw [he] at this
        exact absurd this (by decide)
      · exact (by decide : ∀ c ∈ rI5, c ≠ '(') c h2
    · exact (by decide : ∀ c ∈ rI7, c ≠ '(') c h1
  · intro s h1 h2
    show String.mk (replaceAll pI7 rI7 (replaceAll pI5 rI5 (stripL (takeB s.data))))
      = String.mk (stripL (takeB s.data))
    rw [replaceAll_of_not_contains _ h1, replaceAll_of_not_contains _ h2]

/-- Claim C5 witness: the pass-through statement applied at the concrete
    processor string `"AMD Ryzen 5 5500U"`. -/
theorem claim_C5_witness : procS "AMD Ryzen 5 5500U" = "AMD Ryzen 5 5500U" :=
  (claim_C5.2.2 "AMD Ryzen 5 5500U" (by decide) (by decide)).trans (by decide)

/-- Claim C7: the normalized RAM value and the pre-mapping warranty
    value are the first two whitespace tokens of the original string,
    rejoined with one space: the token list of the result is exactly the
    two-element-truncated token list of the input, and
    `"16 GB DDR4 RAM"` becomes `"16 GB"`. -/
theorem claim_C7 :
    (∀ s : String, tokens (twoTokS s).data = (tokens s.data).take 2) ∧
    twoTokS "16 GB DDR4 RAM" = "16 GB" := by
  refine ⟨?_, by decide⟩
  intro s
  exact tokens_twoTok s.data

/-- Claim C9 counterexample: the warranty rule is not idempotent on its
    own output: `"One-year Internationals"` maps to `"1 Years"` (the
    replacement value `"1 Year"` merges with the trailing `"s"` into the
    key `"1 Years"`, which was already processed), and a second run maps
    that to `"1 Year"`. -/
theorem claim_C9_cex :
    warS "One-year Internationals" = "1 Years" ∧
    warS "1 Years" = "1 Year" ∧
    warS (warS "One-year Internationals") ≠ warS "One-year Internationals" := by
  refine ⟨by decide, by decide, by decide⟩

/-- Claim C9 (amended): re-running a per-column cleaning rule on a value
    it has already produced is a no-op for the brand, processor, RAM
    truncation, operating-system, price digit-stripping and rating
    rules — but not for the warranty rule (see the counterexample). -/
theorem claim_C9 :
    (∀ c : Cell, brandCell (brandCell c) = brandCell c) ∧
    (∀ s : String, procS (procS s) = procS s) ∧
    (∀ s : String, twoTokS (twoTokS s) = twoTokS s) ∧
    (∀ s : String, osS (osS s) = osS s) ∧
    (∀ s : String, priceCleanS (priceCleanS s) = priceCleanS s) ∧
    (∀ s : String, ratingS (ratingS s) = ratingS s) := by
  refine ⟨?_, ?_, ?_, ?_, ?_, ?_⟩
  · intro c
    match c with
    | .na => rfl
    | .n v => rfl
    | .s v =>
      cases hb : brandTok v.data with
      | none =>
        have h1 : brandCell (.s v) = .na := by
          simp [brandCell, brandS, hb]
        rw [h1]
        rfl
      | some tok =>
        have h1 : brandCell (.s v) = .s (String.mk tok) := by
          simp [brandCell, brandS, hb]
        have h2 := brandTok_idem v.data tok hb
        have h3 : brandCell (.s (String.mk tok)) = .s (String.mk tok) := by
          have hdm : (String.mk tok).data = tok := rfl
          simp [brandCell, brandS, hdm, h2]
        rw [h1, h3]
  · intro s
    show String.mk (procL (procS s).data) = procS s
    exact congrArg String.mk (procL_idem s.data)
  · intro s
    show String.mk (twoTok (twoTokS s).data) = twoTokS s
    exact congrArg String.mk (twoTok_idem s.data)
  · intro s
    show String.mk (osL (osS s).data) = osS s
    exact congrArg String.mk (osL_idem s.data)
  · intro s
    show String.mk (priceCleanL (priceCleanS s).data) = priceCleanS s
    exact congrArg String.mk (priceCleanL_idem s.data)
  · intro s
    show String.mk (ratingL (ratingS s).data) = ratingS s
    exact congrArg String.mk (ratingL_idem s.data)

/-- `mapME twoTokCellE` only ever produces string cells. -/
theorem mapME_twoTok_str :
    ∀ {col colv : List Cell}, mapME twoTokCellE col = some colv →
      ∀ c ∈ colv, strCell c = true := by
  intro col
  induction col with
  | nil =>
    intro colv h c hc
    simp only [mapME, Option.some.injEq] at h
    rw [← h] at hc
    simp at hc
  | cons d ds ih =>
    intro colv h c hc
    unfold mapME at h
    cases hd : twoTokCellE d with
    | none => rw [hd] at h; exact absurd h (by simp)
    | some v =>
      rw [hd] at h
      cases hds : mapME twoTokCellE ds with
      | none => rw [hds] at h; exact absurd h (by simp)
      | some vs =>
        rw [hds] at h
        simp only [Option.some.injEq] at h
        rw [← h] at hc
        rcases List.mem_cons.mp hc with h1 | h1
        · subst h1
          match d, hd with
          | .s w, hd =>
            rw [← Option.some.inj hd]
            rfl
          | .n w, hd => exact absurd hd (by simp [twoTokCellE])
          | .na, hd => exact absurd hd (by simp [twoTokCellE])
        · exact ih hds c h1

/-- A column of string cells passes the `.str` accessor check. -/
theorem strAccessorOk_of_str {col : List Cell} (h : ∀ c ∈ col, strCell c = true) :
    strAccessorOk col = true := by
  unfold strAccessorOk
  rw [Bool.or_eq_true]
  left
  rw [List.all_eq_true]
  intro c hc
  have hs := h c hc
  match c with
  | .s v => rfl
  | .n v => exact absurd hs (by simp [strCell])
  | .na => rfl

/-- Claim C1 counterexample: two transform-level data defects abort the
    normalize stage.  First, a table with every required column whose
    one RAM cell is missing (NaN): line 72 computes `' '.join(nan)`,
    a `TypeError`.  Second, a table whose Rating column holds only
    numeric values (the numeric dtype a clean rating column parses to):
    the `.str` accessor of line 95 raises `AttributeError`. -/
theorem claim_C1_cex :
    transform
      [("Title", [Cell.s "Dell Inspiron 15"]),
       ("Processor", [Cell.s "Intel Core 7 Processor"]),
       ("RAM", [Cell.na]),
       ("Operating_System", [Cell.s "64 bit Windows 11"]),
       ("Warranty", [Cell.s "1 Year"]),
       ("Prices", [Cell.s "₹45,990"]),
       ("Rating", [Cell.s "4.3"])] = none ∧
    transform
      [("Title", [Cell.s "Dell Inspiron 15"]),
       ("Processor", [Cell.s "Intel Core 7 Processor"]),
       ("RAM", [Cell.s "8 GB"]),
       ("Operating_System", [Cell.s "64 bit Windows 11"]),
       ("Warranty", [Cell.s "1 Year"]),
       ("Prices", [Cell.s "₹45,990"]),
       ("Rating", [Cell.n 4])] = none := by
  refine ⟨by decide, by decide⟩

/-- Claim C1 (amended): when the seven required columns are present
    after the artifact-column drop, each `.str`-processed column
    (Title, Processor, Operating_System, Prices, Rating) is accepted by
    the `.str` accessor (it is not all-numeric: it holds a string, or
    no numeric value at all), and the RAM and Warranty columns hold
    only strings, the normalize stage never raises: every per-value
    data defect (unparsable price, unmapped warranty or rating string,
    missing values, numeric values inside mixed columns, arbitrary bad
    strings) is coerced to missing or passed through.  A missing RAM or
    Warranty value, or an all-numeric `.str`-processed column, however,
    aborts the run (see the counterexample). -/
theorem claim_C1 (t : Table)
    (title : List Cell) (hT : getCol (dropUnnamed t) "Title" = some title)
    (hTok : strAccessorOk title = true)
    (proc : List Cell) (hP : getCol (dropUnnamed t) "Processor" = some proc)
    (hPok : strAccessorOk proc = true)
    (osc : List Cell) (hO : getCol (dropUnnamed t) "Operating_System" = some osc)
    (hOok : strAccessorOk osc = true)
    (pric : List Cell) (hPr : getCol (dropUnnamed t) "Prices" = some pric)
    (hProk : strAccessorOk pric = true)
    (ratc : List Cell) (hRa : getCol (dropUnnamed t) "Rating" = some ratc)
    (hRaok : strAccessorOk ratc = true)
    (ram : List Cell) (hR : getCol (dropUnnamed t) "RAM" = some ram)
    (hRs : ∀ c ∈ ram, strCell c = true)
    (war : List Cell) (hW : getCol (dropUnnamed t) "Warranty" = some war)
    (hWs : ∀ c ∈ war, strCell c = true) :
    (transform t).isSome := by
  obtain ⟨t3, h3⟩ := Option.isSome_iff_exists.mp (stageBrand_isSome hT hTok)
  have hP3 : getCol t3 "Processor" = some proc := by
    rw [stageBrand_getCol_ne h3 (by decide) (by decide)]
    exact hP
  obtain ⟨t4, h4⟩ := Option.isSome_iff_exists.mp
    (stageMap_isSome (f := procCell) hP3 hPok)
  have hR4 : getCol t4 "RAM" = some ram := by
    rw [stageMap_getCol_ne h4 (by decide),
      stageBrand_getCol_ne h3 (by decide) (by decide)]
    exact hR
  have hRall : ∀ c ∈ ram, (twoTokCellE c).isSome := by
    intro c hc
    have := hRs c hc
    match c with
    | .s v => rfl
    | .n v => exact absurd this (by simp [strCell])
    | .na => exact absurd this (by simp [strCell])
  obtain ⟨t5, h5⟩ := Option.isSome_iff_exists.mp (stageTrunc_isSome hR4 hRall)
  have hO5 : getCol t5 "Operating_System" = some osc := by
    rw [stageTrunc_getCol_ne h5 (by decide), stageMap_getCol_ne h4 (by decide),
      stageBrand_getCol_ne h3 (by decide) (by decide)]
    exact hO
  obtain ⟨t6, h6⟩ := Option.isSome_iff_exists.mp
    (stageMap_isSome (f := osCell) hO5 hOok)
  have hW6 : getCol t6 "Warranty" = some war := by
    rw [stageMap_getCol_ne h6 (by decide), stageTrunc_getCol_ne h5 (by decide),
      stageMap_getCol_ne h4 (by decide),
      stageBrand_getCol_ne h3 (by decide) (by decide)]
    exact hW
  have hWall : ∀ c ∈ war, (twoTokCellE c).isSome := by
    intro c hc
    have := hWs c hc
    match c with
    | .s v => rfl
    | .n v => exact absurd this (by simp [strCell])
    | .na => exact absurd this (by simp [strCell])
  obtain ⟨t6b, h6b⟩ := Option.isSome_iff_exists.mp (stageTrunc_isSome hW6 hWall)
  obtain ⟨colw, colwv, hcolw, hcolwv, ht6b⟩ := stageTrunc_inv h6b
  have hW6b : getCol t6b "Warranty" = some colwv := by
    rw [ht6b, getCol_setCol_self]
  have hWvok : strAccessorOk colwv = true :=
    strAccessorOk_of_str (mapME_twoTok_str hcolwv)
  obtain ⟨t7, h7⟩ := Option.isSome_iff_exists.mp
    (stageMap_isSome (f := warMapCell) hW6b hWvok)
  have hPr7 : getCol t7 "Prices" = some pric := by
    rw [stageMap_getCol_ne h7 (by decide), stageTrunc_getCol_ne h6b (by decide),
      stageMap_getCol_ne h6 (by decide), stageTrunc_getCol_ne h5 (by decide),
      stageMap_getCol_ne h4 (by decide),
      stageBrand_getCol_ne h3 (by decide) (by decide)]
    exact hPr
  obtain ⟨t8, h8⟩ := Option.isSome_iff_exists.mp
    (stageMap_isSome (f := priceCell) hPr7 hProk)
  have hRa8 : getCol t8 "Rating" = some ratc := by
    rw [stageMap_getCol_ne h8 (by decide), stageMap_getCol_ne h7 (by decide),
      stageTrunc_getCol_ne h6b (by decide), stageMap_getCol_ne h6 (by decide),
      stageTrunc_getCol_ne h5 (by decide), stageMap_getCol_ne h4 (by decide),
      stageBrand_getCol_ne h3 (by decide) (by decide)]
    exact hRa
  obtain ⟨out, h9⟩ := Option.isSome_iff_exists.mp
    (stageMap_isSome (f := ratingCell) hRa8 hRaok)
  have hfull : transformFull t = some out := by
    unfold transformFull
    rw [h3, Option.some_bind, h4, Option.some_bind, h5, Option.some_bind, h6,
      Option.some_bind, h6b, Option.some_bind, h7, Option.some_bind, h8,
      Option.some_bind, h9]
  unfold transform
  rw [hfull]
  rfl

/-- Claim C1 witness: a one-row table whose Title, Processor,
    Operating_System, Prices and Rating cells are all missing (each an
    all-NaN column, which the `.str` accessor accepts) still normalizes
    without raising; only RAM and Warranty need strings. -/
theorem claim_C1_witness :
    (transform
      [("Unnamed: 0", [Cell.na]),
       ("Title", [Cell.na]),
       ("Processor", [Cell.na]),
       ("RAM", [Cell.s "16 GB"]),
       ("Operating_System", [Cell.na]),
       ("Warranty", [Cell.s "garbage"]),
       ("Prices", [Cell.na]),
       ("Rating", [Cell.na])]).isSome :=
  claim_C1 _
    [Cell.na] (by decide) (by decide)
    [Cell.na] (by decide) (by decide)
    [Cell.na] (by decide) (by decide)
    [Cell.na] (by decide) (by decide)
    [Cell.na] (by decide) (by decide)
    [Cell.s "16 GB"] (by decide) (by decide)
    [Cell.s "garbage"] (by decide) (by decide)

/-- Claim C6: after normalization the Brand_Name column is the original
    Title column mapped through first-token extraction (with the same
    50-row truncation as the rest of the table), the Title column is
    gone, and an empty or missing title yields a missing Brand_Name. -/
theorem claim_C6 (t out : Table) (title : List Cell)
    (h : transform t = some out)
    (hT : getCol (dropUnnamed t) "Title" = some title) :
    getCol out "Brand_Name" = some ((title.map brandCell).take 50) ∧
    getCol out "Title" = none ∧
    brandCell Cell.na = Cell.na ∧
    brandCell (Cell.s "") = Cell.na := by
  obtain ⟨full, hfull, hout⟩ := Option.map_eq_some'.mp h
  obtain ⟨t3, t4, t5, t6, t6b, t7, t8, h3, h4, h5, h6, h6b, h7, h8, h9⟩ :=
    transformFull_inv hfull
  obtain ⟨title', hT', -, ht3⟩ := stageBrand_inv h3
  have htt : title' = title := Option.some.inj (hT'.symm.trans hT)
  subst htt
  have hB3 : getCol t3 "Brand_Name" = some (title'.map brandCell) := by
    rw [ht3, getCol_dropCol_ne _ (by decide), getCol_setCol_self]
  have hTi3 : getCol t3 "Title" = none := by
    rw [ht3, getCol_dropCol_self]
  have hBfull : getCol full "Brand_Name" = some (title'.map brandCell) := by
    rw [stageMap_getCol_ne h9 (by decide), stageMap_getCol_ne h8 (by decide),
      stageMap_getCol_ne h7 (by decide), stageTrunc_getCol_ne h6b (by decide),
      stageMap_getCol_ne h6 (by decide), stageTrunc_getCol_ne h5 (by decide),
      stageMap_getCol_ne h4 (by decide)]
    exact hB3
  have hTfull : getCol full "Title" = none := by
    rw [stageMap_getCol_ne h9 (by decide), stageMap_getCol_ne h8 (by decide),
      stageMap_getCol_ne h7 (by decide), stageTrunc_getCol_ne h6b (by decide),
      stageMap_getCol_ne h6 (by decide), stageTrunc_getCol_ne h5 (by decide),
      stageMap_getCol_ne h4 (by decide)]
    exact hTi3
  refine ⟨?_, ?_, rfl, rfl⟩
  · rw [← hout, getCol_mapCols full "Brand_Name" (List.take 50), hBfull]
    rfl
  · rw [← hout, getCol_mapCols full "Title" (List.take 50), hTfull]
    rfl

/-- Claim C8: the table returned by the normalize stage (handed to the
    load stage) has `min 50 n` rows in every column, where `n` is the
    per-column row count of the input, and consists of the first rows of
    the fully normalized table in order. -/
theorem claim_C8 (n : Nat) (t out : Table) (hwf : wf n t)
    (h : transform t = some out) :
    (∀ c ∈ out, c.2.length = min 50 n) ∧
    ∃ full, transformFull t = some full ∧ wf n full ∧
      out = full.map (fun c => (c.1, c.2.take 50)) := by
  obtain ⟨full, hfull, hout⟩ := Option.map_eq_some'.mp h
  obtain ⟨t3, t4, t5, t6, t6b, t7, t8, h3, h4, h5, h6, h6b, h7, h8, h9⟩ :=
    transformFull_inv hfull
  have w1 : wf n (dropUnnamed t) := wf_filter hwf
  have w3 := wf_stageBrand h3 w1
  have w4 := wf_stageMap h4 w3
  have w5 := wf_stageTrunc h5 w4
  have w6 := wf_stageMap h6 w5
  have w6b := wf_stageTrunc h6b w6
  have w7 := wf_stageMap h7 w6b
  have w8 := wf_stageMap h8 w7
  have w9 := wf_stageMap h9 w8
  refine ⟨?_, full, hfull, w9, hout.symm⟩
  intro c hc
  rw [← hout] at hc
  obtain ⟨c₀, hc₀, hcc⟩ := List.mem_map.mp hc
  rw [← hcc]
  show (c₀.2.take 50).length = min 50 n
  rw [List.length_take, w9 c₀ hc₀]

/-- Claim C10: the artifact-column drop removes every column whose label
    contains "Unnamed:" anywhere (pandas `filter(like=...)` matches by
    containment): after normalization no column label contains
    "Unnamed:", and a column whose label merely contains "Unnamed:"
    mid-name is already unreachable right after the drop. -/
theorem claim_C10 (t out : Table) (h : transform t = some out) :
    (∀ c ∈ out, strContains c.1 unnamedKey = false) ∧
    (∀ (t' : Table) (m : String), strContains m unnamedKey = true →
      getCol (dropUnnamed t') m = none) := by
  constructor
  · obtain ⟨full, hfull, hout⟩ := Option.map_eq_some'.mp h
    obtain ⟨t3, t4, t5, t6, t6b, t7, t8, h3, h4, h5, h6, h6b, h7, h8, h9⟩ :=
      transformFull_inv hfull
    have o1 := okNames_dropUnnamed t
    have o3 := okNames_stageBrand h3 o1
    have o4 := okNames_stageMap h4 (by decide) o3
    have o5 := okNames_stageTrunc h5 (by decide) o4
    have o6 := okNames_stageMap h6 (by decide) o5
    have o6b := okNames_stageTrunc h6b (by decide) o6
    have o7 := okNames_stageMap h7 (by decide) o6b
    have o8 := okNames_stageMap h8 (by decide) o7
    have o9 := okNames_stageMap h9 (by decide) o8
    intro c hc
    rw [← hout] at hc
    obtain ⟨c₀, hc₀, hcc⟩ := List.mem_map.mp hc
    rw [← hcc]
    exact o9 c₀ hc₀
  · exact fun t' m hm => unnamed_not_found t' m hm

/-- Claim C6 witness: the claim applied to the concrete table `witT`. -/
theorem claim_C6_witness :
    getCol witOut "Brand_Name"
      = some (([Cell.s "Dell Inspiron 15"].map brandCell).take 50) ∧
    getCol witOut "Title" = none ∧
    brandCell Cell.na = Cell.na ∧
    brandCell (Cell.s "") = Cell.na :=
  claim_C6 witT witOut [Cell.s "Dell Inspiron 15"] (by decide) (by decide)

/-- Claim C8 witness: the claim applied to `witT` (one row): the
    Brand_Name column of the output has `min 50 1` rows. -/
theorem claim_C8_witness : ([Cell.s "Dell"]).length = min 50 1 :=
  (claim_C8 1 witT witOut (by unfold wf; decide) (by decide)).1
    ("Brand_Name", [Cell.s "Dell"]) (by decide)

/-- Claim C10 witness: the claim applied to `witT`; in particular the
    mid-name artifact column `"xUnnamed: y"` does not survive the drop. -/
theorem claim_C10_witness :
    strContains "Processor" unnamedKey = false ∧
    getCol (dropUnnamed [("xUnnamed: y", [Cell.s "artifact"])]) "xUnnamed: y" = none :=
  ⟨(claim_C10 witT witOut (by decide)).1
      ("Processor", [Cell.s "Intel Core i7 Processor"]) (by decide),
   (claim_C10 witT witOut (by decide)).2
      [("xUnnamed: y", [Cell.s "artifact"])] "xUnnamed: y" (by decide)⟩

end ETL
